import Mathlib

/-!
Verification of the coolq gateway client of the haruno bot.

The development shallowly embeds the Go package `coolq` (plugin
registration and event dispatch, the pending-request `echoqueue` with its
periodic sweep, and the `SendGroupMsg` send path) as pure Lean functions
and proves the specification's claims about them.

Go maps are modelled as association lists (`List (κ × β)`); a Go map
always has pairwise distinct keys, which theorems take as a `Nodup`
hypothesis on the key list where it matters.  Plugin handlers
(`func(*CQEvent)` in Go) are modelled by opaque handler identifiers of a
type `H`: running a handler contributes its identifier to an invocation
trace, so theorems can speak about which handlers ran, how often, and in
which order.
-/

namespace coolq

/-- Association-list lookup, the model of a Go map read (`m[k]`). -/
def mapLookup {κ β : Type} [DecidableEq κ] (k : κ) : List (κ × β) → Option β
  | [] => none
  | kv :: rest => if kv.1 = k then some kv.2 else mapLookup k rest

/-- Association-list overwrite, the model of a Go map write (`m[k] = v`):
any previous binding of `k` is dropped and the new one recorded. -/
def mapInsert {κ β : Type} [DecidableEq κ] (k : κ) (v : β) (m : List (κ × β)) :
    List (κ × β) :=
  m.filter (fun kv => decide (kv.1 ≠ k)) ++ [(k, v)]

/-- Association-list removal, the model of a Go `delete(m, k)`. -/
def mapErase {κ β : Type} [DecidableEq κ] (k : κ) (m : List (κ × β)) :
    List (κ × β) :=
  m.filter (fun kv => decide (kv.1 ≠ k))

/-- Modelled from the spec: the Event entity is "an inbound decoded
message; opaque payload beyond the fields filters/handlers inspect".  Its
Go definition (`CQEvent`) is not among the provided sources, and no claim
depends on its fields, so it is modelled as an opaque payload wrapper. -/
structure CQEvent where
  payload : String
deriving DecidableEq, Repr

/-- Go constant `timeForWait = 30`: both the sweep period and the expiry
window of the echoqueue, in seconds. -/
def timeForWait : Int := 30

/-- Go constant `noFilterKey = "__NEVER_SET_UNUSED_KEY__"`: the reserved
map key under which the synthesized unconditional handler is stored. -/
def noFilterKey : String := "__NEVER_SET_UNUSED_KEY__"

/-- Value stored in a dispatch entry's handler map: either a
plugin-supplied handler (Go `Handler`, identified here by an `H`), or the
closure synthesized by `registerAllPlugins` over the handlers that have
no matching filter. -/
inductive HandlerFn (H : Type) where
  | base (h : H)
  | synth (hs : List H)

/-- Invocation trace of calling one stored handler function on an event:
a base handler contributes itself once; the synthesized closure calls
each collected no-filter handler in order (Go loop over
`noFilterHanlers`). -/
def runHandler {H : Type} : HandlerFn H → List H
  | HandlerFn.base h => [h]
  | HandlerFn.synth hs => hs

/-- Go `pluginEntry`: the compiled dispatch entry of one plugin.  The
field name `fitlers` reproduces the source's spelling. -/
structure pluginEntry (H : Type) where
  fitlers : List (String × (CQEvent → Bool))
  handlers : List (String × HandlerFn H)

/-- Modelled from the spec (§3 PluginDescriptor): the plugin interface
(`Name`, `Load`, `Filters`, `Handlers`, `Loaded`) is declared outside the
provided sources; its consumer `registerAllPlugins` is in the sources.
`loadOk` is the outcome of the load hook (`Load() error`); the `Loaded`
hook is fire-and-forget and does not affect dispatch, so it is omitted. -/
structure PluginDescriptor (H : Type) where
  name : String
  loadOk : Bool
  filters : List (String × (CQEvent → Bool))
  handlers : List (String × H)

/-- Claimed-key wiring pass of `registerAllPlugins` (the Go loop
`for key, filter := range pluginFilters`): a key whose handler lookup
fails is skipped with a warning; otherwise the (filter, handler) pair is
recorded in both maps of the entry.  Go map iteration touches each
distinct key once, which the recursion mirrors. -/
def wireConds {H : Type} (hs : List (String × H)) :
    List (String × (CQEvent → Bool)) →
      List (String × (CQEvent → Bool)) × List (String × HandlerFn H)
  | [] => ([], [])
  | kf :: rest =>
    let r := wireConds hs rest
    match mapLookup kf.1 hs with
    | none => r
    | some h => ((kf.1, kf.2) :: r.1, (kf.1, HandlerFn.base h) :: r.2)

/-- Go `hasFilter[key]`: set during the filter loop exactly when a filter
with this key exists and the plugin's handler map has a (non-nil) handler
for it. -/
def hasFilterKey {H : Type} (p : PluginDescriptor H) (k : String) : Bool :=
  (p.filters.any fun kf => decide (kf.1 = k)) && (mapLookup k p.handlers).isSome

/-- Handler-map entries collected into `noFilterHanlers`: those whose key
was not claimed by a filter. -/
def unclaimedEntries {H : Type} (p : PluginDescriptor H) : List (String × H) :=
  p.handlers.filter fun kh => !(hasFilterKey p kh.1)

/-- Go `noFilterHanlers`: the handlers with no matching filter, in
handler-map order. -/
def unclaimedHandlers {H : Type} (p : PluginDescriptor H) : List H :=
  (unclaimedEntries p).map Prod.snd

/-- Wiring pass of `registerAllPlugins` for one plugin: claimed pairs go
into `fitlers`/`handlers`, and the synthesized unconditional closure over
`noFilterHanlers` is stored under `noFilterKey` (overwriting any claimed
binding of that reserved key, as the Go map write does). -/
def buildEntry {H : Type} (p : PluginDescriptor H) : pluginEntry H :=
  let wired := wireConds p.handlers p.filters
  { fitlers := wired.1
    handlers := mapInsert noFilterKey (HandlerFn.synth (unclaimedHandlers p)) wired.2 }

/-- Fold of Go map writes `c.pluginEntries[pluginName] = entry` over the
descriptor list. -/
def insFold {β : Type} (l : List (String × β)) (init : List (String × β)) :
    List (String × β) :=
  l.foldl (fun t kv => mapInsert kv.1 kv.2 t) init

/-- Go `registerAllPlugins`: the load pass aborts the process on the
first failing load hook (modelled as `none`); otherwise every descriptor
is wired and stored under its name, a later descriptor overwriting an
earlier one with the same name.  The `Loaded` activation pass has no
effect on the registry and is omitted. -/
def registerAllPlugins {H : Type} (plugs : List (PluginDescriptor H)) :
    Option (List (String × pluginEntry H)) :=
  if plugs.all (fun p => p.loadOk) then
    some (insFold (plugs.map fun p => (p.name, buildEntry p)) [])
  else none

/-- Unconditional part of routing one event through one dispatch entry:
Go `entry.handlers[noFilterKey](event)`.  Registration always stores the
synthesized closure under `noFilterKey`, so the `none` branch is
unreachable for built entries (Go would dereference nil there). -/
def entryUncondTrace {H : Type} (entry : pluginEntry H) : List H :=
  match mapLookup noFilterKey entry.handlers with
  | some hf => runHandler hf
  | none => []

/-- Conditional part of routing one event through one dispatch entry: the
Go loop `for key, filterFunc := range entry.fitlers` looks the handler up
and calls it when the filter passes.  Wiring inserts a handler together
with every filter, so the `none` branch is unreachable for built
entries. -/
def entryCondTrace {H : Type} (entry : pluginEntry H) (e : CQEvent) : List H :=
  entry.fitlers.flatMap fun kf =>
    if kf.2 e then
      match mapLookup kf.1 entry.handlers with
      | some hf => runHandler hf
      | none => []
    else []

/-- Trace of one plugin's dispatch entry on one event: the unconditional
call strictly precedes the conditional loop in the Go source. -/
def entryTrace {H : Type} (entry : pluginEntry H) (e : CQEvent) : List H :=
  entryUncondTrace entry ++ entryCondTrace entry e

/-- Event router (body of `eventConn.OnMessage` after a successful
decode): every registered plugin's entry processes the event. -/
def Route {H : Type} (table : List (String × pluginEntry H)) (e : CQEvent) :
    List H :=
  table.flatMap fun ne => entryTrace ne.2 e

/-- One pass of the sweep goroutine's ticker body at Unix time `now`:
every queue entry whose state is `true` and whose age `now - echo`
exceeds `timeForWait` is deleted, and for each such entry one error-class
log entry is emitted.  The returned `List Int` holds the ids of the
emitted timeout logs, each standing for one
`logger.Service.AddLog(LogTypeError, "Echo = %d 响应超时(30s).")` call. -/
def sweepStep (now : Int) (q : List (Int × Bool)) :
    List (Int × Bool) × List Int :=
  (q.filter fun eb => !(eb.2 && decide (now - eb.1 > timeForWait)),
   (q.filter fun eb => eb.2 && decide (now - eb.1 > timeForWait)).map Prod.fst)

/-- Iterated sweep passes at the given times, accumulating timeout logs. -/
def runSweeps : List Int → List (Int × Bool) → List (Int × Bool) × List Int
  | [], q => (q, [])
  | t :: ts, q =>
    let r := sweepStep t q
    let rest := runSweeps ts r.1
    (rest.1, r.2 ++ rest.2)

/-- Fire times of a Go `time.NewTicker(30 * time.Second)` created at time
`t0`: the first tick is at `t0 + 30` and consecutive ticks are 30 apart. -/
def tickList : Int → Nat → List Int
  | _, 0 => []
  | t0, n + 1 => (t0 + 30) :: tickList (t0 + 30) n

/-- Go `CQTypeSendGroupMsg`: the params object of a send-group-message
action (spec §6: `group_id` integer, `message` string). -/
structure CQTypeSendGroupMsg where
  groupID : Int
  message : String
deriving DecidableEq, Repr

/-- Go constant `ActionSendGroupMsg`, the wire name of the action
(spec §6). -/
def ActionSendGroupMsg : String := "send_group_msg"

/-- Go `CQWSMessage`: the outbound action payload with its `echo`
correlation id (spec §6). -/
structure CQWSMessage where
  action : String
  params : CQTypeSendGroupMsg
  echo : Int
deriving DecidableEq, Repr

/-- Modelled from the spec (§6 inbound acknowledgement payload): the Go
`CQWSResponse` type is outside the provided sources; the core consumes
only its `Echo` field. -/
structure CQWSResponse where
  echo : Int
deriving DecidableEq, Repr

/-- State of the `cqclient` singleton that the claims are about: the two
connections' connected flags (owned by the transport collaborator) and
the `echoqueue` map.  The `Client` literal allocates no `echoqueue`
map; a nil Go map reads as empty and is only ever read or deleted from
in the sources, so it is modelled as the empty association list. -/
structure ClientState where
  apiConnected : Bool
  eventConnected : Bool
  echoqueue : List (Int × Bool)
deriving DecidableEq, Repr

/-- Go `IsAPIOk`: delegates to the API connection's connected flag. -/
def isAPIOk (c : ClientState) : Bool := c.apiConnected

/-- Go `IsEventOk`: delegates to the event connection's connected flag. -/
def isEventOk (c : ClientState) : Bool := c.eventConnected

/-- Go `SendGroupMsg` at Unix time `now`: a silent no-op when the API
connection is unavailable; otherwise it builds the payload with
`Echo = time.Now().Unix()` and transmits it.  The returned list holds the
frames passed to `apiConn.Send`.  The source function contains no write
to `c.echoqueue` and no logging call, which the unchanged state and the
absence of a log output channel reflect. -/
def sendGroupMsg (c : ClientState) (groupID : Int) (message : String)
    (now : Int) : ClientState × List CQWSMessage :=
  if !(isAPIOk c) then (c, [])
  else (c, [⟨ActionSendGroupMsg, ⟨groupID, message⟩, now⟩])

/-- Body of `apiConn.OnMessage`: on a decode error one error log is
emitted and the message dropped; otherwise, when `c.echoqueue[echo]`
reads `true` (a missing key reads `false`), the entry is deleted under
the lock.  The first returned list holds the echo ids whose delete
branch executed, the second the decode-error log texts. -/
def apiOnMessage (c : ClientState) (decoded : Except String CQWSResponse) :
    ClientState × List Int × List String :=
  match decoded with
  | Except.error msg => (c, [], [msg])
  | Except.ok resp =>
    if (mapLookup resp.echo c.echoqueue).getD false then
      (⟨c.apiConnected, c.eventConnected, mapErase resp.echo c.echoqueue⟩,
       [resp.echo], [])
    else (c, [], [])

/-- Outcome of the event connection's on-message callback. -/
inductive EventCallbackResult (H : Type) where
  | panicked (msg : String)
  | handled (invoked : List H)
deriving DecidableEq, Repr

/-- Body of `eventConn.OnMessage`: `json.Unmarshal` is the external
decoder, passed in as a function on the raw text.  On a decode error the
Go source calls `log.Panicln(errMsg)` — which panics — before the
`logger.Service.AddLog(LogTypeError, errMsg)` line, so the callback
terminates by panic and the collaborator log line and the `return` after
it are unreachable; the returned log list is therefore empty in both
branches.  On success the event is routed through every plugin entry. -/
def eventOnMessage {H : Type} (decode : String → Except String CQEvent)
    (table : List (String × pluginEntry H)) (raw : String) :
    EventCallbackResult H × List String :=
  match decode raw with
  | Except.error msg => (EventCallbackResult.panicked msg, [])
  | Except.ok ev => (EventCallbackResult.handled (Route table ev), [])

/-- One interaction with the client, from any of the concurrent contexts
that touch it: a transport-owned connectivity change, a send-path call, a
decoded inbound frame on either connection, or one sweep tick. -/
inductive ClientOp where
  | setAPI (b : Bool)
  | setEvent (b : Bool)
  | send (groupID : Int) (message : String) (now : Int)
  | apiMessage (decoded : Except String CQWSResponse)
  | sweepTick (now : Int)

/-- Observable effects of one client step: transmitted frames, echo ids
whose acknowledgement delete branch executed, and timeout ids logged by
the sweep. -/
structure StepObs where
  frames : List CQWSMessage
  ackDeletes : List Int
  timeoutIds : List Int
deriving DecidableEq, Repr

/-- Step function of the client: each operation is the corresponding
source code path. -/
def stepClient (c : ClientState) : ClientOp → ClientState × StepObs
  | ClientOp.setAPI b => (⟨b, c.eventConnected, c.echoqueue⟩, ⟨[], [], []⟩)
  | ClientOp.setEvent b => (⟨c.apiConnected, b, c.echoqueue⟩, ⟨[], [], []⟩)
  | ClientOp.send g m now =>
    let r := sendGroupMsg c g m now
    (r.1, ⟨r.2, [], []⟩)
  | ClientOp.apiMessage d =>
    let r := apiOnMessage c d
    (r.1, ⟨[], r.2.1, []⟩)
  | ClientOp.sweepTick now =>
    let r := sweepStep now c.echoqueue
    (⟨c.apiConnected, c.eventConnected, r.1⟩, ⟨[], [], r.2⟩)

/-- Run of the client over a sequence of operations, collecting each
step's observations. -/
def runClient (c : ClientState) : List ClientOp → ClientState × List StepObs
  | [] => (c, [])
  | op :: ops =>
    let r := stepClient c op
    let rest := runClient r.1 ops
    (rest.1, r.2 :: rest.2)

/-- State of the `Client` literal: both connections start disconnected
and the `echoqueue` map is not allocated (reads as empty). -/
def initialClient : ClientState := ⟨false, false, []⟩

/-- Kind of an access to the `echoqueue` map. -/
inductive QueueAccessKind where
  | read
  | write
deriving DecidableEq, Repr

/-- Static model of one source-level access to `c.echoqueue`, with
whether the access site sits between `c.mu.Lock()` and `c.mu.Unlock()`. -/
structure QueueAccess where
  site : String
  kind : QueueAccessKind
  underLock : Bool
deriving DecidableEq, Repr

/-- Boolean test for a write access. -/
def QueueAccess.isWrite (a : QueueAccess) : Bool :=
  match a.kind with
  | QueueAccessKind.write => true
  | QueueAccessKind.read => false

/-- Every access to `c.echoqueue` in the sources, in source order:
the membership read `c.echoqueue[echo]` in `apiConn.OnMessage` (before
the lock is taken), the locked `delete` in the same callback, the
unlocked `range c.echoqueue` iteration of the sweep goroutine, and the
locked `delete` inside the sweep.  `SendGroupMsg` contains no access to
the map. -/
def echoqueueAccesses : List QueueAccess :=
  [⟨"apiConn.OnMessage: c.echoqueue[echo] membership test",
    QueueAccessKind.read, false⟩,
   ⟨"apiConn.OnMessage: delete(c.echoqueue, echo)",
    QueueAccessKind.write, true⟩,
   ⟨"sweep goroutine: for echo, state := range c.echoqueue",
    QueueAccessKind.read, false⟩,
   ⟨"sweep goroutine: delete(c.echoqueue, echo)",
    QueueAccessKind.write, true⟩]

section MapLemmas

variable {κ β : Type} [DecidableEq κ]

theorem mapLookup_append_left {k : κ} {a : List (κ × β)} {v : β}
    (b : List (κ × β)) (h : mapLookup k a = some v) :
    mapLookup k (a ++ b) = some v := by
  induction a with
  | nil => simp [mapLookup] at h
  | cons kv rest ih =>
    by_cases hk : kv.1 = k
    · simp [mapLookup, hk] at h ⊢; exact h
    · simp [mapLookup, hk] at h ⊢; exact ih h

theorem mapLookup_append_right {k : κ} {a : List (κ × β)}
    (b : List (κ × β)) (h : mapLookup k a = none) :
    mapLookup k (a ++ b) = mapLookup k b := by
  induction a with
  | nil => simp
  | cons kv rest ih =>
    by_cases hk : kv.1 = k
    · simp [mapLookup, hk] at h
    · simp [mapLookup, hk] at h ⊢; exact ih h

theorem mem_of_mapLookup {k : κ} {l : List (κ × β)} {v : β}
    (h : mapLookup k l = some v) : (k, v) ∈ l := by
  induction l with
  | nil => simp [mapLookup] at h
  | cons kv rest ih =>
    by_cases hk : kv.1 = k
    · have h2 : kv.2 = v := by simpa [mapLookup, hk] using h
      have hkv : kv = (k, v) := by
        cases kv
        simp_all
      rw [hkv]
      exact List.mem_cons_self _ _
    · simp only [mapLookup, hk, if_false] at h
      exact List.mem_cons_of_mem _ (ih h)

theorem mapLookup_eq_none_iff {k : κ} {l : List (κ × β)} :
    mapLookup k l = none ↔ ∀ v : β, (k, v) ∉ l := by
  induction l with
  | nil => simp [mapLookup]
  | cons kv rest ih =>
    by_cases hk : kv.1 = k
    · subst hk
      constructor
      · intro h
        simp [mapLookup] at h
      · intro h
        exfalso
        exact h kv.2 (by rw [Prod.mk.eta]; exact List.mem_cons_self _ _)
    · simp only [mapLookup, hk, if_false, ih]
      constructor
      · intro h v hv
        rcases List.mem_cons.mp hv with h1 | h2
        · exact hk (by rw [← h1])
        · exact h v h2
      · intro h v hv
        exact h v (List.mem_cons_of_mem _ hv)

theorem mapLookup_isSome_of_mem {k : κ} {l : List (κ × β)} {v : β}
    (h : (k, v) ∈ l) : (mapLookup k l).isSome := by
  cases hl : mapLookup k l with
  | some w => rfl
  | none => exact absurd h (mapLookup_eq_none_iff.mp hl v)

theorem mapLookup_of_mem_of_unique {k : κ} {l : List (κ × β)} {v : β}
    (hmem : (k, v) ∈ l) (huniq : ∀ w : β, (k, w) ∈ l → w = v) :
    mapLookup k l = some v := by
  induction l with
  | nil => simp at hmem
  | cons kv rest ih =>
    by_cases hk : kv.1 = k
    · have : kv.2 = v := by
        apply huniq
        rw [← hk]
        rw [Prod.mk.eta]
        exact List.mem_cons_self _ _
      simp [mapLookup, hk, this]
    · simp only [mapLookup, hk, if_false]
      apply ih
      · rcases List.mem_cons.mp hmem with h1 | h2
        · exact absurd (by rw [← h1]) hk
        · exact h2
      · intro w hw
        exact huniq w (List.mem_cons_of_mem _ hw)

theorem mapLookup_eq_some_of_nodup {k : κ} {l : List (κ × β)} {v : β}
    (hnd : (l.map Prod.fst).Nodup) (hmem : (k, v) ∈ l) :
    mapLookup k l = some v := by
  apply mapLookup_of_mem_of_unique hmem
  intro w hw
  induction l with
  | nil => simp at hmem
  | cons kv rest ih =>
    simp only [List.map_cons, List.nodup_cons] at hnd
    rcases List.mem_cons.mp hmem with h1 | h1 <;>
      rcases List.mem_cons.mp hw with h2 | h2
    · rw [← h2] at h1; exact congrArg Prod.snd h1.symm
    · exact absurd (List.mem_map.mpr ⟨(k, w), h2, by rw [← h1]⟩) hnd.1
    · exact absurd (List.mem_map.mpr ⟨(k, v), h1, by rw [← h2]⟩) hnd.1
    · exact ih hnd.2 h1 h2

theorem mapLookup_filter_keep {k : κ} {l : List (κ × β)}
    {p : κ × β → Bool} (hkeep : ∀ v : β, p (k, v) = true) :
    mapLookup k (l.filter p) = mapLookup k l := by
  induction l with
  | nil => simp
  | cons kv rest ih =>
    by_cases hk : kv.1 = k
    · have hpkv : p kv = true := by
        have h2 := hkeep kv.2
        rw [← hk] at h2
        rwa [Prod.mk.eta] at h2
      simp [List.filter_cons, hpkv, mapLookup, hk]
    · by_cases hp : p kv = true
      · simp [List.filter_cons, hp, mapLookup, hk, ih]
      · simp only [Bool.not_eq_true] at hp
        simp [List.filter_cons, hp, mapLookup, hk, ih]

theorem mapLookup_filter_of_lookup {k : κ} {l : List (κ × β)} {v : β}
    {p : κ × β → Bool} (h : mapLookup k l = some v)
    (hkeep : p (k, v) = true) :
    mapLookup k (l.filter p) = some v := by
  induction l with
  | nil => simp [mapLookup] at h
  | cons kv rest ih =>
    by_cases hk : kv.1 = k
    · simp only [mapLookup, hk, if_true] at h
      have hkv : kv = (k, v) := by
        cases kv; simp_all
      rw [hkv]
      simp [List.filter_cons, hkeep, mapLookup]
    · simp only [mapLookup, hk, if_false] at h
      by_cases hp : p kv = true
      · simp [List.filter_cons, hp, mapLookup, hk, ih h]
      · simp only [Bool.not_eq_true] at hp
        simp [List.filter_cons, hp, ih h]

theorem mapLookup_filter_none {k : κ} {l : List (κ × β)}
    {p : κ × β → Bool} (hdrop : ∀ v : β, (k, v) ∈ l → p (k, v) = false) :
    mapLookup k (l.filter p) = none := by
  rw [mapLookup_eq_none_iff]
  intro v hv
  have hmem := List.mem_filter.mp hv
  have := hdrop v hmem.1
  rw [this] at hmem
  exact absurd hmem.2 (by simp)

theorem mapLookup_mapInsert_self (k : κ) (v : β) (m : List (κ × β)) :
    mapLookup k (mapInsert k v m) = some v := by
  unfold mapInsert
  rw [mapLookup_append_right]
  · simp [mapLookup]
  · exact mapLookup_filter_none (fun w _ => by simp)

theorem mapLookup_mapInsert_ne {k k' : κ} (hne : k' ≠ k) (v : β)
    (m : List (κ × β)) :
    mapLookup k (mapInsert k' v m) = mapLookup k m := by
  unfold mapInsert
  cases hm : mapLookup k m with
  | some w =>
    apply mapLookup_append_left
    exact mapLookup_filter_of_lookup hm (by simp [Ne.symm hne])
  | none =>
    rw [mapLookup_append_right]
    · simp [mapLookup, hne]
    · rw [mapLookup_filter_keep (fun w => by simp [Ne.symm hne])]
      exact hm

theorem filter_self_filter {α : Type} (p : α → Bool) (l : List α) :
    (l.filter p).filter p = l.filter p := by
  induction l with
  | nil => simp
  | cons a t ih =>
    by_cases h : p a = true
    · simp [List.filter_cons, h, ih]
    · simp only [Bool.not_eq_true] at h
      simp [List.filter_cons, h, ih]

theorem filter_swap {α : Type} (p q : α → Bool) (l : List α) :
    (l.filter p).filter q = (l.filter q).filter p := by
  induction l with
  | nil => simp
  | cons a t ih =>
    by_cases hp : p a = true <;> by_cases hq : q a = true <;>
      simp_all [List.filter_cons]

theorem mapInsert_eq_erase_append (k : κ) (v : β) (m : List (κ × β)) :
    mapInsert k v m = mapErase k m ++ [(k, v)] := rfl

theorem mapErase_mapInsert_self (k : κ) (v : β) (m : List (κ × β)) :
    mapErase k (mapInsert k v m) = mapErase k m := by
  unfold mapErase mapInsert
  rw [List.filter_append, filter_self_filter]
  simp

theorem mapErase_mapInsert_ne {k k' : κ} (hne : k' ≠ k) (v : β)
    (m : List (κ × β)) :
    mapErase k (mapInsert k' v m) = mapInsert k' v (mapErase k m) := by
  unfold mapErase mapInsert
  rw [List.filter_append, filter_swap]
  simp [hne]

theorem insFold_cons {β : Type} (kv : String × β) (l : List (String × β))
    (init : List (String × β)) :
    insFold (kv :: l) init = insFold l (mapInsert kv.1 kv.2 init) := rfl

theorem insFold_append {β : Type} (a b : List (String × β))
    (init : List (String × β)) :
    insFold (a ++ b) init = insFold b (insFold a init) := by
  simp [insFold, List.foldl_append]

theorem mapLookup_insFold_of_no_key {β : Type} {k : String}
    {l : List (String × β)} (h : ∀ kv ∈ l, kv.1 ≠ k) :
    ∀ init, mapLookup k (insFold l init) = mapLookup k init := by
  induction l with
  | nil => intro init; rfl
  | cons kv t ih =>
    intro init
    rw [insFold_cons, ih (fun x hx => h x (List.mem_cons_of_mem _ hx)),
      mapLookup_mapInsert_ne (h kv (List.mem_cons_self _ _))]

theorem mapLookup_insFold_last {β : Type} {k : String}
    {l : List (String × β)} {v : β} (h : mapLookup k l.reverse = some v) :
    ∀ init, mapLookup k (insFold l init) = some v := by
  induction l with
  | nil => simp [mapLookup] at h
  | cons kv t ih =>
    intro init
    rw [List.reverse_cons] at h
    cases ht : mapLookup k t.reverse with
    | some w =>
      have := mapLookup_append_left [kv] ht
      rw [this] at h
      cases h
      rw [insFold_cons]
      exact ih ht _
    | none =>
      rw [mapLookup_append_right [kv] ht] at h
      by_cases hk : kv.1 = k
      · simp only [mapLookup, hk, if_true] at h
        cases h
        have hno : ∀ x ∈ t, x.1 ≠ k := by
          intro x hx hxk
          apply mapLookup_eq_none_iff.mp ht x.2
          rw [← hxk, Prod.mk.eta]
          exact List.mem_reverse.mpr hx
        rw [insFold_cons, mapLookup_insFold_of_no_key hno, hk,
          mapLookup_mapInsert_self]
      · simp [mapLookup, hk] at h

theorem insFold_congr_of_erase {β : Type} {k : String} :
    ∀ {ys : List (String × β)} {A B : List (String × β)},
      mapErase k A = mapErase k B → (∃ kv ∈ ys, kv.1 = k) →
      insFold ys A = insFold ys B := by
  intro ys
  induction ys with
  | nil => intro A B _ hex; simp at hex
  | cons kv t ih =>
    intro A B hAB hex
    by_cases hk : kv.1 = k
    · have : mapInsert kv.1 kv.2 A = mapInsert kv.1 kv.2 B := by
        rw [mapInsert_eq_erase_append, mapInsert_eq_erase_append, hk, hAB]
      rw [insFold_cons, insFold_cons, this]
    · rcases hex with ⟨x, hx, hxk⟩
      rcases List.mem_cons.mp hx with h1 | h2
      · exact absurd (by rw [← h1]; exact hxk) hk
      · rw [insFold_cons, insFold_cons]
        apply ih _ ⟨x, h2, hxk⟩
        rw [mapErase_mapInsert_ne hk, mapErase_mapInsert_ne hk, hAB]

theorem insFold_drop_dup {β : Type} {k : String} {v : β}
    {ys M : List (String × β)} (hex : ∃ kv ∈ ys, kv.1 = k) :
    insFold ys (mapInsert k v M) = insFold ys M :=
  insFold_congr_of_erase (mapErase_mapInsert_self k v M) hex

theorem insFold_dup_middle {β : Type} (A B C : List (String × β))
    (pk qk : String × β) (hname : qk.1 = pk.1) :
    insFold (A ++ pk :: (B ++ qk :: C)) []
      = insFold (A ++ (B ++ qk :: C)) [] :=
  calc insFold (A ++ pk :: (B ++ qk :: C)) []
      = insFold (pk :: (B ++ qk :: C)) (insFold A []) :=
        insFold_append A _ []
    _ = insFold (B ++ qk :: C) (mapInsert pk.1 pk.2 (insFold A [])) :=
        insFold_cons pk _ _
    _ = insFold (B ++ qk :: C) (insFold A []) :=
        insFold_drop_dup ⟨qk, by simp, hname⟩
    _ = insFold (A ++ (B ++ qk :: C)) [] := (insFold_append A _ []).symm

end MapLemmas

section RegistryLemmas

variable {H : Type}

theorem wireConds_fst_mem {hs : List (String × H)} :
    ∀ {fs : List (String × (CQEvent → Bool))} {kf},
      kf ∈ (wireConds hs fs).1 → kf ∈ fs := by
  intro fs
  induction fs with
  | nil => intro kf h; simp [wireConds] at h
  | cons kf0 rest ih =>
    intro kf h
    cases hl : mapLookup kf0.1 hs with
    | none =>
      simp only [wireConds, hl] at h
      exact List.mem_cons_of_mem _ (ih h)
    | some h0 =>
      simp only [wireConds, hl] at h
      rcases List.mem_cons.mp h with h1 | h2
      · rw [h1, Prod.mk.eta]; exact List.mem_cons_self _ _
      · exact List.mem_cons_of_mem _ (ih h2)

theorem wireConds_mem {hs : List (String × H)}
    {fs : List (String × (CQEvent → Bool))} {k : String}
    {f : CQEvent → Bool} {h : H} (hkf : (k, f) ∈ fs)
    (hlk : mapLookup k hs = some h) : (k, f) ∈ (wireConds hs fs).1 := by
  induction fs with
  | nil => simp at hkf
  | cons kf0 rest ih =>
    rcases List.mem_cons.mp hkf with h1 | h2
    · have : kf0 = (k, f) := h1.symm
      subst this
      simp only [wireConds, hlk]
      exact List.mem_cons_self _ _
    · cases hl : mapLookup kf0.1 hs with
      | none => simp only [wireConds, hl]; exact ih h2
      | some h0 =>
        simp only [wireConds, hl]
        exact List.mem_cons_of_mem _ (ih h2)

theorem wireConds_keys_sublist (hs : List (String × H)) :
    ∀ fs : List (String × (CQEvent → Bool)),
      ((wireConds hs fs).1.map Prod.fst).Sublist (fs.map Prod.fst) := by
  intro fs
  induction fs with
  | nil => simp [wireConds]
  | cons kf0 rest ih =>
    cases hl : mapLookup kf0.1 hs with
    | none =>
      simp only [wireConds, hl, List.map_cons]
      exact ih.cons _
    | some h0 =>
      simp only [wireConds, hl, List.map_cons]
      exact ih.cons₂ _

theorem wireConds_lookup₂ {hs : List (String × H)} :
    ∀ {fs : List (String × (CQEvent → Bool))},
      (fs.map Prod.fst).Nodup →
      ∀ {k : String} {f : CQEvent → Bool}, (k, f) ∈ (wireConds hs fs).1 →
      ∃ h : H, mapLookup k hs = some h ∧
        mapLookup k (wireConds hs fs).2 = some (HandlerFn.base h) := by
  intro fs
  induction fs with
  | nil => intro _ k f h; simp [wireConds] at h
  | cons kf0 rest ih =>
    intro hnd k f hmem
    simp only [List.map_cons, List.nodup_cons] at hnd
    cases hl : mapLookup kf0.1 hs with
    | none =>
      simp only [wireConds, hl] at hmem ⊢
      exact ih hnd.2 hmem
    | some h0 =>
      simp only [wireConds, hl] at hmem ⊢
      rcases List.mem_cons.mp hmem with h1 | h2
      · have hk : kf0.1 = k := (congrArg Prod.fst h1).symm
        subst hk
        refine ⟨h0, hl, ?_⟩
        simp [mapLookup]
      · have hkne : kf0.1 ≠ k := by
          intro he
          apply hnd.1
          apply List.mem_map.mpr
          exact ⟨(k, f), wireConds_fst_mem h2, he.symm⟩
        obtain ⟨h1, hh1, hh2⟩ := ih hnd.2 h2
        refine ⟨h1, hh1, ?_⟩
        simp only [mapLookup, hkne, if_false]
        exact hh2

theorem buildEntry_fitlers (p : PluginDescriptor H) :
    (buildEntry p).fitlers = (wireConds p.handlers p.filters).1 := rfl

theorem buildEntry_lookup_noFilterKey (p : PluginDescriptor H) :
    mapLookup noFilterKey (buildEntry p).handlers
      = some (HandlerFn.synth (unclaimedHandlers p)) :=
  mapLookup_mapInsert_self _ _ _

theorem buildEntry_uncond (p : PluginDescriptor H) :
    entryUncondTrace (buildEntry p) = unclaimedHandlers p := by
  unfold entryUncondTrace
  rw [buildEntry_lookup_noFilterKey]
  rfl

theorem buildEntry_lookup_ne (p : PluginDescriptor H) {k : String}
    (hk : k ≠ noFilterKey) :
    mapLookup k (buildEntry p).handlers
      = mapLookup k (wireConds p.handlers p.filters).2 :=
  mapLookup_mapInsert_ne (Ne.symm hk) _ _

theorem registerAll_some {plugs : List (PluginDescriptor H)}
    {table : List (String × pluginEntry H)}
    (h : registerAllPlugins plugs = some table) :
    plugs.all (fun p => p.loadOk) = true ∧
      table = insFold (plugs.map fun p => (p.name, buildEntry p)) [] := by
  unfold registerAllPlugins at h
  by_cases hl : plugs.all (fun p => p.loadOk) = true
  · rw [if_pos hl] at h
    cases h
    exact ⟨hl, rfl⟩
  · rw [if_neg hl] at h
    cases h

theorem registerAll_lookup_self {plugs : List (PluginDescriptor H)}
    {table : List (String × pluginEntry H)}
    (hreg : registerAllPlugins plugs = some table)
    {p : PluginDescriptor H} (hp : p ∈ plugs)
    (huniq : ∀ q ∈ plugs, q.name = p.name → q = p) :
    mapLookup p.name table = some (buildEntry p) := by
  obtain ⟨-, htab⟩ := registerAll_some hreg
  subst htab
  apply mapLookup_insFold_last
  apply mapLookup_of_mem_of_unique
  · exact List.mem_reverse.mpr (List.mem_map.mpr ⟨p, hp, rfl⟩)
  · intro w hw
    obtain ⟨q, hq, heq⟩ := List.mem_map.mp (List.mem_reverse.mp hw)
    have hqn : q.name = p.name := congrArg Prod.fst heq
    have hqp : q = p := huniq q hq hqn
    have hsnd : buildEntry q = w := congrArg Prod.snd heq
    rw [← hsnd, hqp]

end RegistryLemmas

section CountLemmas

theorem count_flatMap {α γ : Type} [DecidableEq γ] (g : α → List γ) (c : γ) :
    ∀ l : List α,
      List.count c (l.flatMap g) = (l.map fun a => List.count c (g a)).sum := by
  intro l
  induction l with
  | nil => simp
  | cons a t ih => simp [List.flatMap_cons, List.count_append, ih]

theorem sum_map_eq_zero {α : Type} {l : List α} {c : α → Nat}
    (h : ∀ x ∈ l, c x = 0) : (l.map c).sum = 0 := by
  induction l with
  | nil => simp
  | cons a t ih =>
    simp only [List.map_cons, List.sum_cons, h a (List.mem_cons_self _ _),
      Nat.zero_add]
    exact ih fun x hx => h x (List.mem_cons_of_mem _ hx)

theorem sum_map_single_key {β' : Type} {l : List (String × β')}
    (hnd : (l.map Prod.fst).Nodup) {k : String} {kf0 : String × β'}
    (hmem : kf0 ∈ l) (hk : kf0.1 = k) (c : String × β' → Nat)
    (hc : ∀ x ∈ l, x.1 ≠ k → c x = 0) : (l.map c).sum = c kf0 := by
  induction l with
  | nil => simp at hmem
  | cons x t ih =>
    simp only [List.map_cons, List.nodup_cons] at hnd
    by_cases hx : x.1 = k
    · have hkf0 : kf0 = x := by
        rcases List.mem_cons.mp hmem with h1 | h2
        · exact h1
        · exact absurd (List.mem_map.mpr ⟨kf0, h2, by rw [hk, hx]⟩) hnd.1
      rw [hkf0]
      simp only [List.map_cons, List.sum_cons]
      have : (t.map c).sum = 0 := by
        apply sum_map_eq_zero
        intro y hy
        apply hc y (List.mem_cons_of_mem _ hy)
        intro hyk
        exact hnd.1 (List.mem_map.mpr ⟨y, hy, by rw [hyk, hx]⟩)
      rw [this]
      exact Nat.add_zero _
    · have hkf0t : kf0 ∈ t := by
        rcases List.mem_cons.mp hmem with h1 | h2
        · exact absurd (by rw [← h1]; exact hk) hx
        · exact h2
      simp only [List.map_cons, List.sum_cons,
        hc x (List.mem_cons_self _ _) hx, Nat.zero_add]
      exact ih hnd.2 hkf0t fun y hy hyk =>
        hc y (List.mem_cons_of_mem _ hy) hyk

theorem eq_of_mem_filter_singleton {α : Type} {l : List α} {p : α → Bool}
    {a b : α} (hlen : (l.filter p).length = 1) (ha : a ∈ l.filter p)
    (hb : b ∈ l.filter p) : a = b := by
  obtain ⟨x, hx⟩ := List.length_eq_one.mp hlen
  rw [hx] at ha hb
  rw [List.mem_singleton.mp ha, List.mem_singleton.mp hb]

theorem length_filter_eq_one_of_nodup {α : Type} [DecidableEq α]
    {l : List α} {a : α} (hnd : l.Nodup) (ha : a ∈ l) :
    (l.filter fun x => decide (x = a)).length = 1 := by
  induction l with
  | nil => simp at ha
  | cons b t ih =>
    rw [List.nodup_cons] at hnd
    by_cases hb : b = a
    · subst hb
      have hnil : (t.filter fun x => decide (x = b)) = [] := by
        apply List.filter_eq_nil_iff.mpr
        intro x hx
        simp only [decide_eq_true_eq]
        intro he
        exact hnd.1 (he ▸ hx)
      simp [List.filter_cons, hnil]
    · have hat : a ∈ t := by
        rcases List.mem_cons.mp ha with h1 | h2
        · exact absurd h1.symm hb
        · exact h2
      simp only [List.filter_cons, decide_eq_true_eq, hb, if_false]
      exact ih hnd.2 hat

end CountLemmas

section DispatchLemmas

variable {H : Type}

/-- Per-filter-entry contribution of the router's conditional loop
(named form of the lambda inside `entryCondTrace`). -/
def condDispatch (entry : pluginEntry H) (e : CQEvent)
    (kf : String × (CQEvent → Bool)) : List H :=
  if kf.2 e then
    match mapLookup kf.1 entry.handlers with
    | some hf => runHandler hf
    | none => []
  else []

theorem entryCondTrace_eq_flatMap (entry : pluginEntry H) (e : CQEvent) :
    entryCondTrace entry e = entry.fitlers.flatMap (condDispatch entry e) :=
  rfl

theorem hasFilterKey_true {p : PluginDescriptor H} {k : String}
    {f : CQEvent → Bool} {h : H} (hkf : (k, f) ∈ p.filters)
    (hkh : (k, h) ∈ p.handlers) : hasFilterKey p k = true := by
  unfold hasFilterKey
  have h1 : (p.filters.any fun kf => decide (kf.1 = k)) = true :=
    List.any_eq_true.mpr ⟨(k, f), hkf, by simp⟩
  rw [h1]
  simp [mapLookup_isSome_of_mem hkh]

theorem count_unclaimedHandlers_zero [DecidableEq H]
    {p : PluginDescriptor H} {k : String} {h : H}
    (hkh : (k, h) ∈ p.handlers)
    (honly : (p.handlers.filter fun kh => decide (kh.2 = h)).length = 1)
    (hclaim : hasFilterKey p k = true) :
    List.count h (unclaimedHandlers p) = 0 := by
  rw [List.count_eq_zero]
  intro hmem
  obtain ⟨kh, hkh2, hsnd⟩ := List.mem_map.mp hmem
  have hfil := List.mem_filter.mp hkh2
  have h1 : kh ∈ p.handlers.filter fun x => decide (x.2 = h) :=
    List.mem_filter.mpr ⟨hfil.1, by simp [hsnd]⟩
  have h2 : (k, h) ∈ p.handlers.filter fun x => decide (x.2 = h) :=
    List.mem_filter.mpr ⟨hkh, by simp⟩
  have h3 : kh = (k, h) := eq_of_mem_filter_singleton honly h1 h2
  have h4 := hfil.2
  rw [h3] at h4
  simp [hclaim] at h4

theorem count_condTrace_of_claimed [DecidableEq H]
    {p : PluginDescriptor H}
    (hndF : (p.filters.map Prod.fst).Nodup)
    (hndH : (p.handlers.map Prod.fst).Nodup)
    {k : String} {f : CQEvent → Bool} {h : H}
    (hkf : (k, f) ∈ p.filters) (hkh : (k, h) ∈ p.handlers)
    (hk : k ≠ noFilterKey)
    (honly : (p.handlers.filter fun kh => decide (kh.2 = h)).length = 1)
    (e : CQEvent) :
    List.count h (entryCondTrace (buildEntry p) e) = if f e then 1 else 0 := by
  have hlkh : mapLookup k p.handlers = some h :=
    mapLookup_eq_some_of_nodup hndH hkh
  have hclaim : hasFilterKey p k = true := hasFilterKey_true hkf hkh
  have hwk : ((wireConds p.handlers p.filters).1.map Prod.fst).Nodup :=
    List.Nodup.sublist (wireConds_keys_sublist p.handlers p.filters) hndF
  have hmemw : (k, f) ∈ (wireConds p.handlers p.filters).1 :=
    wireConds_mem hkf hlkh
  have hc : ∀ x ∈ (wireConds p.handlers p.filters).1, x.1 ≠ k →
      List.count h (condDispatch (buildEntry p) e x) = 0 := by
    intro x hx hxk
    unfold condDispatch
    by_cases hnf : x.1 = noFilterKey
    · rw [hnf, buildEntry_lookup_noFilterKey]
      have h0 : List.count h (unclaimedHandlers p) = 0 :=
        count_unclaimedHandlers_zero hkh honly hclaim
      by_cases hfe : x.2 e = true
      · simpa [hfe, runHandler] using h0
      · simp only [Bool.not_eq_true] at hfe
        simp [hfe]
    · rw [← Prod.mk.eta (p := x)] at hx
      obtain ⟨h1, hh1, hh2⟩ := wireConds_lookup₂ hndF hx
      rw [buildEntry_lookup_ne p hnf, hh2]
      have hne : h ≠ h1 := by
        intro heq
        subst heq
        have hx1 : (x.1, h) ∈ p.handlers := mem_of_mapLookup hh1
        have m1 : (x.1, h) ∈ p.handlers.filter fun y => decide (y.2 = h) :=
          List.mem_filter.mpr ⟨hx1, by simp⟩
        have m2 : (k, h) ∈ p.handlers.filter fun y => decide (y.2 = h) :=
          List.mem_filter.mpr ⟨hkh, by simp⟩
        exact hxk (congrArg Prod.fst (eq_of_mem_filter_singleton honly m1 m2))
      by_cases hfe : x.2 e = true
      · simp only [hfe, if_true, runHandler]
        exact List.count_eq_zero.mpr (by simp [hne])
      · simp only [Bool.not_eq_true] at hfe
        simp [hfe]
  rw [entryCondTrace_eq_flatMap, buildEntry_fitlers, count_flatMap]
  rw [sum_map_single_key hwk hmemw rfl
    (fun x => List.count h (condDispatch (buildEntry p) e x)) hc]
  unfold condDispatch
  rw [buildEntry_lookup_ne p hk]
  obtain ⟨h1, hh1, hh2⟩ := wireConds_lookup₂ hndF hmemw
  rw [hh2]
  have hh : h1 = h := by
    rw [hlkh] at hh1
    cases hh1
    rfl
  subst hh
  by_cases hfe : f e = true
  · simp [hfe, runHandler]
  · simp only [Bool.not_eq_true] at hfe
    simp [hfe]

end DispatchLemmas

section Examples

/-- Example filter of a concrete plugin: matches join events. -/
def joinFilter : CQEvent → Bool := fun e => e.payload == "join"

/-- Concrete plugin with one claimed key ("join") and one unclaimed key
("log"); handlers are identified by numbers. -/
def plugA : PluginDescriptor Nat :=
  ⟨"plugA", true, [("join", joinFilter)], [("join", 0), ("log", 1)]⟩

/-- Dispatch table built from `plugA` alone. -/
def tblA : List (String × pluginEntry Nat) := [("plugA", buildEntry plugA)]

/-- Filter of the reserved-key plugin: passes every event. -/
def reservedFilter : CQEvent → Bool := fun _ => true

/-- Plugin that (pathologically) uses the reserved `noFilterKey` as an
ordinary filter/handler key. -/
def plugReserved : PluginDescriptor Nat :=
  ⟨"reserved", true, [(noFilterKey, reservedFilter)], [(noFilterKey, 7)]⟩

/-- First of two plugins sharing the name "dup". -/
def plugP : PluginDescriptor Nat := ⟨"dup", true, [], [("a", 0)]⟩

/-- Second of two plugins sharing the name "dup". -/
def plugQ : PluginDescriptor Nat := ⟨"dup", true, [], [("b", 1)]⟩

end Examples

/-- C3: for every registered plugin `p` (unique under its name) and every
routed event `e`, each handler entry `(k, h)` of `p` whose key has no
entry in `p`'s filter mapping is invoked exactly once, via the
synthesized unconditional dispatch function: the plugin's trace on `e`
begins with the unconditional segment `unclaimedHandlers p`, which
contains exactly one invocation for the binding `(k, h)`, before any
conditional dispatch runs. -/
theorem unclaimed_handler_invoked_every_event
    {H : Type} [DecidableEq H]
    (plugs : List (PluginDescriptor H))
    (table : List (String × pluginEntry H))
    (hreg : registerAllPlugins plugs = some table)
    (p : PluginDescriptor H) (hp : p ∈ plugs)
    (huniq : ∀ q ∈ plugs, q.name = p.name → q = p)
    (hndH : (p.handlers.map Prod.fst).Nodup)
    (k : String) (h : H) (hkh : (k, h) ∈ p.handlers)
    (hnof : (p.filters.all fun kf => decide (kf.1 ≠ k)) = true)
    (e : CQEvent) :
    mapLookup p.name table = some (buildEntry p)
    ∧ entryTrace (buildEntry p) e
        = unclaimedHandlers p ++ entryCondTrace (buildEntry p) e
    ∧ ((unclaimedEntries p).filter fun kh => decide (kh = (k, h))).length = 1
    ∧ h ∈ entryTrace (buildEntry p) e := by
  have hany : (p.filters.any fun kf => decide (kf.1 = k)) = false := by
    apply Bool.eq_false_iff.mpr
    intro hcontra
    obtain ⟨kf, hmem, hdec⟩ := List.any_eq_true.mp hcontra
    have h2 := List.all_eq_true.mp hnof kf hmem
    simp only [decide_eq_true_eq] at hdec h2
    exact h2 hdec
  have huncl : (k, h) ∈ unclaimedEntries p := by
    apply List.mem_filter.mpr
    refine ⟨hkh, ?_⟩
    unfold hasFilterKey
    rw [hany]
    rfl
  have hndall : (unclaimedEntries p).Nodup :=
    (List.Nodup.of_map Prod.fst hndH).filter _
  refine ⟨registerAll_lookup_self hreg hp huniq, ?_, ?_, ?_⟩
  · unfold entryTrace
    rw [buildEntry_uncond]
  · exact length_filter_eq_one_of_nodup hndall huncl
  · unfold entryTrace
    apply List.mem_append_left
    rw [buildEntry_uncond]
    exact List.mem_map.mpr ⟨(k, h), huncl, rfl⟩

/-- C3 witness: with `plugA` registered, the handler 1 under the
unclaimed key "log" is invoked exactly once on a concrete event. -/
theorem unclaimed_handler_invoked_every_event_witness :
    mapLookup plugA.name tblA = some (buildEntry plugA)
    ∧ entryTrace (buildEntry plugA) ⟨"x"⟩
        = unclaimedHandlers plugA ++ entryCondTrace (buildEntry plugA) ⟨"x"⟩
    ∧ ((unclaimedEntries plugA).filter fun kh =>
        decide (kh = ("log", 1))).length = 1
    ∧ 1 ∈ entryTrace (buildEntry plugA) ⟨"x"⟩ :=
  unclaimed_handler_invoked_every_event [plugA] tblA rfl plugA
    (List.mem_singleton.mpr rfl)
    (fun q hq _ => List.mem_singleton.mp hq)
    (by decide) "log" 1 (by decide) (by decide) ⟨"x"⟩

/-- C4 (amended): for a registered plugin `p`, a key `k` other than the
reserved `noFilterKey` that is present in both the filter mapping (with
predicate `f`) and the handler mapping (with handler `h`, bound under no
other handler key), the handler is invoked on a routed event exactly when
`f` returns true for it: its count in the plugin's trace is 1 when
`f e = true` and 0 otherwise.  The reservation of `noFilterKey` is the
amendment: for that one key the stored handler is overwritten by the
synthesized unconditional function and never fires. -/
theorem filtered_handler_fires_iff_filter
    {H : Type} [DecidableEq H]
    (plugs : List (PluginDescriptor H))
    (table : List (String × pluginEntry H))
    (hreg : registerAllPlugins plugs = some table)
    (p : PluginDescriptor H) (hp : p ∈ plugs)
    (huniq : ∀ q ∈ plugs, q.name = p.name → q = p)
    (hndF : (p.filters.map Prod.fst).Nodup)
    (hndH : (p.handlers.map Prod.fst).Nodup)
    (k : String) (f : CQEvent → Bool) (h : H)
    (hkf : (k, f) ∈ p.filters) (hkh : (k, h) ∈ p.handlers)
    (hk : k ≠ noFilterKey)
    (honly : (p.handlers.filter fun kh => decide (kh.2 = h)).length = 1)
    (e : CQEvent) :
    mapLookup p.name table = some (buildEntry p)
    ∧ List.count h (entryTrace (buildEntry p) e)
        = if f e then 1 else 0 := by
  refine ⟨registerAll_lookup_self hreg hp huniq, ?_⟩
  unfold entryTrace
  rw [List.count_append, buildEntry_uncond,
    count_unclaimedHandlers_zero hkh honly (hasFilterKey_true hkf hkh),
    count_condTrace_of_claimed hndF hndH hkf hkh hk honly e]
  exact Nat.zero_add _

/-- C4 witness: with `plugA` registered, handler 0 under the claimed key
"join" fires exactly once on a join event and not at all on another
event. -/
theorem filtered_handler_fires_iff_filter_witness :
    (mapLookup plugA.name tblA = some (buildEntry plugA)
      ∧ List.count 0 (entryTrace (buildEntry plugA) ⟨"join"⟩)
          = if joinFilter ⟨"join"⟩ then 1 else 0)
    ∧ (mapLookup plugA.name tblA = some (buildEntry plugA)
      ∧ List.count 0 (entryTrace (buildEntry plugA) ⟨"leave"⟩)
          = if joinFilter ⟨"leave"⟩ then 1 else 0) :=
  ⟨filtered_handler_fires_iff_filter [plugA] tblA rfl plugA
      (List.mem_singleton.mpr rfl) (fun q hq _ => List.mem_singleton.mp hq)
      (by decide) (by decide) "join" joinFilter 0
      (List.mem_singleton.mpr rfl) (by decide) (by decide) (by decide)
      ⟨"join"⟩,
    filtered_handler_fires_iff_filter [plugA] tblA rfl plugA
      (List.mem_singleton.mpr rfl) (fun q hq _ => List.mem_singleton.mp hq)
      (by decide) (by decide) "join" joinFilter 0
      (List.mem_singleton.mpr rfl) (by decide) (by decide) (by decide)
      ⟨"leave"⟩⟩

/-- C4 counterexample: the claim as stated is false for the reserved key.
`plugReserved` binds both a filter (always true) and a handler (7) under
`noFilterKey`; after registration the synthesized unconditional closure
overwrites the stored handler, so handler 7 is never invoked even though
its paired filter returns true for the routed event. -/
theorem reserved_key_handler_never_fires :
    (noFilterKey, reservedFilter) ∈ plugReserved.filters
    ∧ (noFilterKey, 7) ∈ plugReserved.handlers
    ∧ registerAllPlugins [plugReserved]
        = some [("reserved", buildEntry plugReserved)]
    ∧ reservedFilter ⟨"x"⟩ = true
    ∧ List.count 7 (Route [("reserved", buildEntry plugReserved)] ⟨"x"⟩)
        = 0 :=
  ⟨List.mem_singleton.mpr rfl, List.mem_singleton.mpr rfl, rfl, rfl, rfl⟩

/-- C5: for every routed event and every single registered plugin, the
plugin's synthesized unconditional handler runs before any of its
conditional handlers: the full router trace decomposes around the
plugin's position with the unconditional segment wholly preceding the
conditional segment, itself followed only by other plugins' traces. -/
theorem uncond_runs_before_cond
    {H : Type} (plugs : List (PluginDescriptor H))
    (table t₁ t₂ : List (String × pluginEntry H))
    (hreg : registerAllPlugins plugs = some table)
    (n : String) (entry : pluginEntry H)
    (hsplit : table = t₁ ++ (n, entry) :: t₂) (e : CQEvent) :
    Route table e
      = Route t₁ e
        ++ (entryUncondTrace entry ++ entryCondTrace entry e)
        ++ Route t₂ e := by
  subst hsplit
  unfold Route entryTrace
  rw [List.flatMap_append, List.flatMap_cons]
  simp [List.append_assoc]

/-- C5 witness: concrete decomposition for the table holding `plugA`. -/
theorem uncond_runs_before_cond_witness :
    Route tblA ⟨"join"⟩
      = Route [] ⟨"join"⟩
        ++ (entryUncondTrace (buildEntry plugA)
            ++ entryCondTrace (buildEntry plugA) ⟨"join"⟩)
        ++ Route [] ⟨"join"⟩ :=
  uncond_runs_before_cond [plugA] tblA [] [] rfl "plugA" (buildEntry plugA)
    rfl ⟨"join"⟩

/-- C6: when two descriptors share a name, registration succeeds, the
later descriptor fully supersedes the earlier — the resulting registry
equals the registry built without the earlier descriptor at all, so no
handler or filter of the earlier one can be reached by routing — and,
when no later descriptor reuses the name, the name resolves to the later
descriptor's dispatch entry. -/
theorem duplicate_name_overwrites
    {H : Type} (l₁ l₂ l₃ : List (PluginDescriptor H))
    (p q : PluginDescriptor H) (hname : q.name = p.name)
    (hload : ((l₁ ++ p :: l₂ ++ q :: l₃).all fun r => r.loadOk) = true)
    (hlast : ∀ r ∈ l₃, r.name ≠ p.name) :
    registerAllPlugins (l₁ ++ p :: l₂ ++ q :: l₃)
        = registerAllPlugins (l₁ ++ l₂ ++ q :: l₃)
    ∧ (registerAllPlugins (l₁ ++ p :: l₂ ++ q :: l₃)).isSome = true
    ∧ mapLookup p.name
        ((registerAllPlugins (l₁ ++ p :: l₂ ++ q :: l₃)).getD [])
        = some (buildEntry q) := by
  have hload2 : ((l₁ ++ l₂ ++ q :: l₃).all fun r => r.loadOk) = true := by
    apply List.all_eq_true.mpr
    intro r hr
    apply List.all_eq_true.mp hload r
    simp only [List.mem_append, List.mem_cons] at hr ⊢
    tauto
  have htab :
      insFold ((l₁ ++ p :: l₂ ++ q :: l₃).map
          fun r => (r.name, buildEntry r)) []
        = insFold ((l₁ ++ l₂ ++ q :: l₃).map
          fun r => (r.name, buildEntry r)) [] := by
    simp only [List.map_append, List.map_cons, List.append_assoc]
    exact insFold_dup_middle _ _ _ _ _ hname
  have hlookup :
      mapLookup p.name
          (insFold ((l₁ ++ p :: l₂ ++ q :: l₃).map
            fun r => (r.name, buildEntry r)) [])
        = some (buildEntry q) := by
    apply mapLookup_insFold_last
    have hrev :
        ((l₁ ++ p :: l₂ ++ q :: l₃).map
            fun r => (r.name, buildEntry r)).reverse
          = (l₃.map fun r => (r.name, buildEntry r)).reverse
            ++ (q.name, buildEntry q)
              :: (((l₂.map fun r => (r.name, buildEntry r)).reverse
                ++ (p.name, buildEntry p)
                  :: (l₁.map fun r => (r.name, buildEntry r)).reverse)) := by
      simp [List.map_append, List.reverse_append]
    rw [hrev]
    rw [mapLookup_append_right]
    · simp only [mapLookup, hname, if_true]
    · apply mapLookup_eq_none_iff.mpr
      intro v hv
      obtain ⟨r, hr, heq⟩ :=
        List.mem_map.mp (List.mem_reverse.mp hv)
      exact hlast r hr (congrArg Prod.fst heq)
  unfold registerAllPlugins
  rw [if_pos hload, if_pos hload2]
  exact ⟨congrArg some htab, rfl, hlookup⟩

/-- C6 witness: `plugQ` supersedes `plugP` under the shared name "dup". -/
theorem duplicate_name_overwrites_witness :
    registerAllPlugins [plugP, plugQ] = registerAllPlugins [plugQ]
    ∧ (registerAllPlugins [plugP, plugQ]).isSome = true
    ∧ mapLookup plugP.name ((registerAllPlugins [plugP, plugQ]).getD [])
        = some (buildEntry plugQ) :=
  duplicate_name_overwrites [] [] [] plugP plugQ rfl rfl
    (fun r hr => absurd hr (List.not_mem_nil r))

/-- Client state with both connections up and the echoqueue in its
initial (empty) condition. -/
def connectedClient : ClientState := ⟨true, true, []⟩

/-- C1 (code bug evidence): with the API connection available,
`SendGroupMsg` transmits a payload whose `echo` field is the current Unix
time, yet the client state — including the `echoqueue` tracked set — is
completely unchanged and the fresh id is not tracked: the source contains
no write to `c.echoqueue`, contradicting the claimed `Track`-before-send
step that the rest of the tracker machinery presupposes. -/
theorem sendGroupMsg_transmits_but_never_tracks :
    sendGroupMsg connectedClient 1 "hi" 1700000000
      = (connectedClient, [⟨ActionSendGroupMsg, ⟨1, "hi"⟩, 1700000000⟩])
    ∧ (sendGroupMsg connectedClient 1 "hi" 1700000000).1.echoqueue = []
    ∧ mapLookup 1700000000
        (sendGroupMsg connectedClient 1 "hi" 1700000000).1.echoqueue
        = none :=
  ⟨rfl, rfl, rfl⟩

/-- C2 (code bug evidence): an event-connection message whose bytes fail
to decode invokes zero plugin handlers, but the callback terminates by
panic (`log.Panicln` runs before the collaborator `AddLog`, which is dead
code) and emits zero decode-error log entries through the logging
collaborator — not the one entry with a normal return that the claim
describes.  The table built from `plugA` is installed to show no handler
of a registered plugin runs. -/
theorem event_decode_failure_panics_without_log :
    eventOnMessage (fun _ => Except.error "invalid character") tblA
        "not json"
      = (EventCallbackResult.panicked "invalid character", []) :=
  rfl

/-- C7: calling `SendGroupMsg` while the API connection reports
unavailable is a silent no-op: the state (hence the tracked set) is
unchanged, no frame is transmitted, and — the source containing no
logging call on this path, as the model's output type records — nothing
is logged. -/
theorem sendGroupMsg_noop_when_unavailable
    (c : ClientState) (groupID : Int) (message : String) (now : Int)
    (h : isAPIOk c = false) :
    sendGroupMsg c groupID message now = (c, []) := by
  simp [sendGroupMsg, h]

/-- C7 witness: the initial (disconnected) client sends nothing. -/
theorem sendGroupMsg_noop_when_unavailable_witness :
    sendGroupMsg initialClient 5 "msg" 1700000000 = (initialClient, []) :=
  sendGroupMsg_noop_when_unavailable initialClient 5 "msg" 1700000000 rfl

section SweepLemmas

theorem runSweeps_nil (q : List (Int × Bool)) : runSweeps [] q = (q, []) :=
  rfl

theorem runSweeps_cons (t : Int) (ts : List Int) (q : List (Int × Bool)) :
    runSweeps (t :: ts) q
      = ((runSweeps ts (sweepStep t q).1).1,
         (sweepStep t q).2 ++ (runSweeps ts (sweepStep t q).1).2) := rfl

theorem runSweeps_append (a b : List Int) :
    ∀ q : List (Int × Bool),
      runSweeps (a ++ b) q
        = ((runSweeps b (runSweeps a q).1).1,
           (runSweeps a q).2 ++ (runSweeps b (runSweeps a q).1).2) := by
  induction a with
  | nil => intro q; simp [runSweeps_nil]
  | cons t ts ih =>
    intro q
    rw [List.cons_append, runSweeps_cons, runSweeps_cons, ih]
    simp [List.append_assoc]

theorem sweepStep_keep {now T : Int} {q : List (Int × Bool)}
    (hnow : now ≤ T + 30) (hT : mapLookup T q = some true) :
    mapLookup T (sweepStep now q).1 = some true := by
  unfold sweepStep
  apply mapLookup_filter_of_lookup hT
  simp only [Bool.true_and, Bool.not_eq_true', decide_eq_false_iff_not,
    timeForWait]
  omega

theorem sweepStep_no_log {now T : Int} (q : List (Int × Bool))
    (hnow : now ≤ T + 30) : T ∉ (sweepStep now q).2 := by
  unfold sweepStep
  intro hmem
  obtain ⟨eb, hmemf, hfst⟩ := List.mem_map.mp hmem
  have hcond := (List.mem_filter.mp hmemf).2
  rw [hfst] at hcond
  simp only [timeForWait, Bool.and_eq_true, decide_eq_true_eq] at hcond
  omega

theorem sweepStep_nodup (now : Int) {q : List (Int × Bool)}
    (hnd : (q.map Prod.fst).Nodup) :
    ((sweepStep now q).1.map Prod.fst).Nodup := by
  unfold sweepStep
  exact List.Nodup.sublist (List.Sublist.map _ (List.filter_sublist _)) hnd

theorem sweepStep_absent (now : Int) {T : Int} {q : List (Int × Bool)}
    (hT : mapLookup T q = none) :
    mapLookup T (sweepStep now q).1 = none
    ∧ T ∉ (sweepStep now q).2 := by
  constructor
  · unfold sweepStep
    apply mapLookup_eq_none_iff.mpr
    intro v hv
    exact mapLookup_eq_none_iff.mp hT v (List.mem_filter.mp hv).1
  · unfold sweepStep
    intro hmem
    obtain ⟨eb, hmemf, hfst⟩ := List.mem_map.mp hmem
    apply mapLookup_eq_none_iff.mp hT eb.2
    rw [← hfst, Prod.mk.eta]
    exact (List.mem_filter.mp hmemf).1

theorem sweepStep_remove (now : Int) {T : Int} {q : List (Int × Bool)}
    (hnow : T + 31 ≤ now) (hT : mapLookup T q = some true)
    (hnd : (q.map Prod.fst).Nodup) :
    mapLookup T (sweepStep now q).1 = none
    ∧ List.count T (sweepStep now q).2 = 1 := by
  constructor
  · unfold sweepStep
    apply mapLookup_filter_none
    intro v hv
    have hvt : v = true := by
      have hl := mapLookup_eq_some_of_nodup hnd hv
      rw [hT] at hl
      injection hl with hl2
      exact hl2.symm
    subst hvt
    simp only [timeForWait, Bool.true_and, Bool.not_eq_false',
      decide_eq_true_eq]
    omega
  · unfold sweepStep
    have hmem : (T, true) ∈ q := mem_of_mapLookup hT
    have hmemf : (T, true) ∈ q.filter
        fun eb => eb.2 && decide (now - eb.1 > timeForWait) := by
      apply List.mem_filter.mpr
      refine ⟨hmem, ?_⟩
      simp only [timeForWait, Bool.and_eq_true, decide_eq_true_eq]
      exact ⟨by simp, by omega⟩
    have hndf : ((q.filter
        fun eb => eb.2 && decide (now - eb.1 > timeForWait)).map
          Prod.fst).Nodup :=
      List.Nodup.sublist (List.Sublist.map _ (List.filter_sublist _)) hnd
    exact List.count_eq_one_of_mem hndf
      (List.mem_map.mpr ⟨(T, true), hmemf, rfl⟩)

theorem runSweeps_keep {T : Int} :
    ∀ (ts : List Int) (q : List (Int × Bool)),
      (∀ t ∈ ts, t ≤ T + 30) → mapLookup T q = some true →
      (q.map Prod.fst).Nodup →
      mapLookup T (runSweeps ts q).1 = some true
      ∧ ((runSweeps ts q).1.map Prod.fst).Nodup
      ∧ T ∉ (runSweeps ts q).2 := by
  intro ts
  induction ts with
  | nil => intro q _ hT hnd; exact ⟨hT, hnd, by simp [runSweeps_nil]⟩
  | cons t ts ih =>
    intro q hts hT hnd
    have ht := hts t (List.mem_cons_self _ _)
    have h1 := sweepStep_keep ht hT
    have h2 := sweepStep_nodup t hnd
    obtain ⟨ih1, ih2, ih3⟩ :=
      ih _ (fun u hu => hts u (List.mem_cons_of_mem _ hu)) h1 h2
    refine ⟨by rw [runSweeps_cons]; exact ih1,
      by rw [runSweeps_cons]; exact ih2, ?_⟩
    rw [runSweeps_cons]
    intro hmem
    rcases List.mem_append.mp hmem with hm | hm
    · exact sweepStep_no_log q ht hm
    · exact ih3 hm

theorem runSweeps_absent {T : Int} :
    ∀ (ts : List Int) (q : List (Int × Bool)),
      mapLookup T q = none →
      mapLookup T (runSweeps ts q).1 = none ∧ T ∉ (runSweeps ts q).2 := by
  intro ts
  induction ts with
  | nil => intro q hT; exact ⟨hT, by simp [runSweeps_nil]⟩
  | cons t ts ih =>
    intro q hT
    obtain ⟨h1, h2⟩ := sweepStep_absent t hT
    obtain ⟨ih1, ih2⟩ := ih _ h1
    refine ⟨by rw [runSweeps_cons]; exact ih1, ?_⟩
    rw [runSweeps_cons]
    intro hmem
    rcases List.mem_append.mp hmem with hm | hm
    · exact h2 hm
    · exact ih2 hm

theorem tick_split (T : Int) :
    ∀ (n : Nat) (t0 : Int), t0 ≤ T + 30 → T + 31 ≤ t0 + 30 * (n : Int) →
      ∃ la t lb, tickList t0 n = la ++ t :: lb
        ∧ (∀ u ∈ la, u ≤ T + 30) ∧ T + 31 ≤ t ∧ t ≤ T + 60 := by
  intro n
  induction n with
  | zero =>
    intro t0 h1 h2
    exfalso
    push_cast at h2
    omega
  | succ n ih =>
    intro t0 h1 h2
    by_cases hfirst : T + 31 ≤ t0 + 30
    · exact ⟨[], t0 + 30, tickList (t0 + 30) n, rfl, by simp, hfirst,
        by omega⟩
    · push_neg at hfirst
      obtain ⟨la, t, lb, heq, hla, ht1, ht2⟩ :=
        ih (t0 + 30) (by omega) (by push_cast at h2 ⊢; omega)
      refine ⟨(t0 + 30) :: la, t, lb, ?_, ?_, ht1, ht2⟩
      · show tickList t0 (n + 1) = _
        rw [tickList, heq]
        rfl
      · intro u hu
        rcases List.mem_cons.mp hu with hu1 | hu2
        · omega
        · exact hla u hu2

end SweepLemmas

/-- C8: an id whose encoded timestamp is `T`, present (tracked) in the
queue, survives every sweep pass run at instants up to `T + 29`; and
along the 30-second tick grid of a ticker started at `t0 ≤ T` that
reaches past the expiry threshold, running the sweeps at all ticks up to
`T + 61` leaves the id removed with exactly one timeout log entry
naming it. -/
theorem tracked_id_expires_by_sweep
    (q0 : List (Int × Bool)) (T : Int)
    (hT : mapLookup T q0 = some true)
    (hnd : (q0.map Prod.fst).Nodup)
    (early : List Int) (hearly : ∀ t ∈ early, t ≤ T + 29)
    (t0 : Int) (n : Nat) (ht0 : t0 ≤ T)
    (hn : T + 31 ≤ t0 + 30 * (n : Int)) :
    mapLookup T (runSweeps early q0).1 = some true
    ∧ mapLookup T
        (runSweeps ((tickList t0 n).filter fun u => decide (u ≤ T + 61))
          q0).1 = none
    ∧ List.count T
        (runSweeps ((tickList t0 n).filter fun u => decide (u ≤ T + 61))
          q0).2 = 1 := by
  refine ⟨(runSweeps_keep early q0
      (fun t ht => by have := hearly t ht; omega) hT hnd).1, ?_⟩
  obtain ⟨la, t, lb, heq, hla, ht1, ht2⟩ := tick_split T n t0 (by omega) hn
  have hfiltered :
      (tickList t0 n).filter (fun u => decide (u ≤ T + 61))
        = la ++ t :: lb.filter (fun u => decide (u ≤ T + 61)) := by
    rw [heq, List.filter_append]
    have hlaeq : la.filter (fun u => decide (u ≤ T + 61)) = la :=
      List.filter_eq_self.mpr fun u hu => by
        have := hla u hu
        simp only [decide_eq_true_eq]
        omega
    have hdec : decide (t ≤ T + 61) = true := decide_eq_true (by omega)
    rw [hlaeq]
    simp [List.filter_cons, hdec]
  rw [hfiltered, runSweeps_append, runSweeps_cons]
  obtain ⟨k1, k2, k3⟩ := runSweeps_keep la q0 (fun u hu => hla u hu) hT hnd
  obtain ⟨r1, r2⟩ := sweepStep_remove t ht1 k1 k2
  obtain ⟨a1, a2⟩ :=
    runSweeps_absent (lb.filter fun u => decide (u ≤ T + 61)) _ r1
  refine ⟨a1, ?_⟩
  rw [List.count_append, List.count_append,
    List.count_eq_zero.mpr k3, r2, List.count_eq_zero.mpr a2]

/-- C8 witness: an id tracked at time 1000 survives sweeps at 1010 and
1029, and the 30-second grid of a ticker started at 990 (ticks 1020,
1050, 1080; those up to 1061 being 1020 and 1050) removes it with one
timeout log. -/
theorem tracked_id_expires_by_sweep_witness :
    mapLookup 1000 (runSweeps [1010, 1029] [((1000 : Int), true)]).1
      = some true
    ∧ mapLookup 1000
        (runSweeps ((tickList 990 3).filter
            fun u => decide (u ≤ (1000 : Int) + 61))
          [((1000 : Int), true)]).1 = none
    ∧ List.count 1000
        (runSweeps ((tickList 990 3).filter
            fun u => decide (u ≤ (1000 : Int) + 61))
          [((1000 : Int), true)]).2 = 1 :=
  tracked_id_expires_by_sweep [((1000 : Int), true)] 1000 (by decide)
    (by decide) [1010, 1029] (by decide) 990 3 (by decide) (by decide)

/-- C9 counterexample: not every read and write of the echoqueue happens
under the mutex.  The access list shows the claim false at a concrete
access site: the first entry — the membership read `c.echoqueue[echo]` in
the acknowledgement callback — is performed with `underLock = false`, as
is the sweep goroutine's `range` iteration, so `all underLock` is
false. -/
theorem echoqueue_access_unlocked_read_exists :
    (echoqueueAccesses.all fun a => a.underLock) = false
    ∧ (echoqueueAccesses.map fun a => (a.kind, a.underLock))
        = [(QueueAccessKind.read, false), (QueueAccessKind.write, true),
           (QueueAccessKind.read, false), (QueueAccessKind.write, true)] :=
  ⟨rfl, rfl⟩

/-- C9 (amended): only the two `delete` operations on the echoqueue are
performed while holding the lock; the membership read in the
acknowledgement callback and the sweep loop's map iteration read the
queue without the lock. -/
theorem echoqueue_writes_locked_reads_unlocked :
    ((echoqueueAccesses.filter fun a => a.isWrite).all
        fun a => a.underLock) = true
    ∧ ((echoqueueAccesses.filter fun a => !a.isWrite).all
        fun a => !a.underLock) = true :=
  ⟨rfl, rfl⟩

theorem runClient_cons (c : ClientState) (op : ClientOp)
    (ops : List ClientOp) :
    runClient c (op :: ops)
      = ((runClient (stepClient c op).1 ops).1,
         (stepClient c op).2 :: (runClient (stepClient c op).1 ops).2) :=
  rfl

theorem stepClient_empty_queue (c : ClientState) (hc : c.echoqueue = [])
    (op : ClientOp) :
    (stepClient c op).1.echoqueue = []
    ∧ (stepClient c op).2.ackDeletes = []
    ∧ (stepClient c op).2.timeoutIds = [] := by
  cases op with
  | setAPI b => simp [stepClient, hc]
  | setEvent b => simp [stepClient, hc]
  | send g m now =>
    unfold stepClient sendGroupMsg
    by_cases h : isAPIOk c
    · simp [h, hc]
    · simp [h, hc]
  | apiMessage d =>
    cases d with
    | error m => simp [stepClient, apiOnMessage, hc]
    | ok resp => simp [stepClient, apiOnMessage, hc, mapLookup]
  | sweepTick now => simp [stepClient, sweepStep, hc]

theorem runClient_preserves_empty :
    ∀ (ops : List ClientOp) (c : ClientState), c.echoqueue = [] →
      (runClient c ops).1.echoqueue = []
      ∧ ((runClient c ops).2.all
          fun o => o.ackDeletes.isEmpty && o.timeoutIds.isEmpty) = true := by
  intro ops
  induction ops with
  | nil => intro c hc; exact ⟨hc, rfl⟩
  | cons op ops ih =>
    intro c hc
    obtain ⟨h1, h2, h3⟩ := stepClient_empty_queue c hc op
    obtain ⟨ih1, ih2⟩ := ih _ h1
    refine ⟨by rw [runClient_cons]; exact ih1, ?_⟩
    rw [runClient_cons]
    simp only [List.all_cons, ih2, Bool.and_true]
    simp [h2, h3]

/-- C10: invariant of every reachable client state — starting from the
`Client` literal (no allocated echoqueue) and running any sequence of
operations from all contexts (sends, connectivity changes, decoded
acknowledgement frames, sweep ticks), the echoqueue stays empty, the
acknowledgement callback's delete branch never executes, and the sweep
never removes an entry or emits a timeout log. -/
theorem echoqueue_always_empty (ops : List ClientOp) :
    (runClient initialClient ops).1.echoqueue = []
    ∧ ((runClient initialClient ops).2.all
        fun o => o.ackDeletes.isEmpty && o.timeoutIds.isEmpty) = true :=
  runClient_preserves_empty ops initialClient rfl

end coolq
